import Mathlib

/-!
Verification of the keyed clearance-cookie cache (`CfCookieManager` in
`src/services/cf_cookie_manager.py`) and the proxy-route resolver
(`ProxyManager.get_proxy_url` in `src/services/proxy_manager.py`).

Two embeddings are used:

* a sequential functional embedding of one `get_cookies` call (the call runs
  without interference from other tasks; times observed by the call and the
  acquirer's result are explicit parameters), together with `_proxy_key`,
  `_is_valid`, `_get_lock`, `invalidate` and `invalidate_all`;

* a small-step interleaving machine for the concurrent coordination protocol
  of `get_cookies(proxy, force_refresh=False)`, with one transition per atomic
  segment between asyncio suspension points, used for the single-flight and
  lock-release properties.
-/

/-- A cookies dict: cookie name ↦ cookie value. -/
abbrev Cookies := List (String × String)

/-- What `_fetch_cookies_via_browser` returns on success: `(cookies, user_agent)`. -/
abbrev FetchResult := Cookies × String

/-- A cache entry `(cookies_dict, user_agent, timestamp)` as stored in `self._cache`. -/
abbrev CacheEntry := Cookies × String × Nat

/-- The mutable state of a `CfCookieManager` instance: the cookie cache
`self._cache` (a dict keyed by proxy key, modelled as an association list) and
the per-key lock registry `self._locks` (only the set of keys for which a lock
object has been created matters to the claims, so it is modelled as the list of
those keys). -/
structure CMState where
  cache : List (String × CacheEntry)
  locks : List String
deriving DecidableEq

/-- Constant `CfCookieManager.CACHE_TTL = 600` (seconds). -/
def CACHE_TTL : Nat := 600

/-- Function `CfCookieManager._proxy_key`: `return proxy_url or "__no_proxy__"`.
Python `or` takes the right operand when `proxy_url` is falsy, i.e. `None`
or the empty string. -/
def proxyKey : Option String → String
  | none => "__no_proxy__"
  | some s => if s = "" then "__no_proxy__" else s

/-- Function `CfCookieManager._is_valid`: the key must be present and
`time.time() - ts < CACHE_TTL`.  Timestamps are naturals; the subtraction is
performed in `Int` to mirror the (possibly negative) Python float difference. -/
def isValid (st : CMState) (key : String) (now : Nat) : Bool :=
  match st.cache.lookup key with
  | none => false
  | some (_, _, ts) => decide ((now : Int) - (ts : Int) < (CACHE_TTL : Int))

/-- Function `CfCookieManager._get_lock`: under the global lock, create the key's lock
if it does not exist yet.  Only the registry contents are modelled here; lock
ownership lives in the interleaving machine below. -/
def getLock (st : CMState) (key : String) : CMState :=
  if key ∈ st.locks then st else { st with locks := key :: st.locks }

/-- Dict assignment `self._cache[key] = entry`: rebind `key`, keep all other
keys. -/
def cacheStore (c : List (String × CacheEntry)) (key : String) (e : CacheEntry) :
    List (String × CacheEntry) :=
  (key, e) :: c.filter (fun q => q.1 != key)

/-- The observable outcome of one `get_cookies` call: the returned value, the
manager state afterwards, whether the per-key lock was taken, and whether the
acquirer (`_fetch_cookies_via_browser`) was invoked. -/
structure GetOutcome where
  ret : Option FetchResult
  state : CMState
  lockTaken : Bool
  acquirerCalled : Bool
deriving DecidableEq

/-- The body of the `async with lock:` block of `get_cookies` (lines 79–94).
`st` is the manager state observed once the lock is held — other tasks may
have completed an acquisition while this caller waited, so `st` is arbitrary.
`now` is the time of the double-check, `fetchResult` the acquirer's outcome,
`tStore` the `time.time()` taken when the new entry is stored. -/
def getCookiesLocked (st : CMState) (key : String) (force_refresh : Bool)
    (now : Nat) (fetchResult : Option FetchResult) (tStore : Nat) : GetOutcome :=
  if force_refresh = false ∧ isValid st key now = true then
    match st.cache.lookup key with
    | some (cookies, ua, _) => ⟨some (cookies, ua), st, true, false⟩
    | none => ⟨none, st, true, false⟩    -- unreachable: `isValid` implies the key is present
  else
    match fetchResult with
    | some (cookies, ua) =>
        ⟨some (cookies, ua), { st with cache := cacheStore st.cache key (cookies, ua, tStore) }, true, true⟩
    | none => ⟨none, st, true, true⟩

/-- One interference-free `get_cookies(proxy_url, force_refresh)` call
(lines 56–94).  `playwrightAvailable` is the module flag `PLAYWRIGHT_AVAILABLE`;
`now` is the time observed by the validity checks of this call, `fetchResult`
what `_fetch_cookies_via_browser` would return, `tStore` the time at which a
successful result is stamped into the cache. -/
def getCookies (playwrightAvailable : Bool) (st : CMState) (proxy_url : Option String)
    (force_refresh : Bool) (now : Nat) (fetchResult : Option FetchResult)
    (tStore : Nat) : GetOutcome :=
  if playwrightAvailable = false then ⟨none, st, false, false⟩
  else
    let key := proxyKey proxy_url
    if force_refresh = false ∧ isValid st key now = true then
      match st.cache.lookup key with
      | some (cookies, ua, _) => ⟨some (cookies, ua), st, false, false⟩
      | none => ⟨none, st, false, false⟩    -- unreachable: `isValid` implies the key is present
    else
      getCookiesLocked (getLock st key) key force_refresh now fetchResult tStore

/-- Method `CfCookieManager.invalidate`: `if key in self._cache: del self._cache[key]`. -/
def invalidate (st : CMState) (proxy_url : Option String) : CMState :=
  let key := proxyKey proxy_url
  if (st.cache.lookup key).isSome then
    { st with cache := st.cache.filter (fun q => q.1 != key) }
  else st

/-- Method `CfCookieManager.invalidate_all`: `self._cache.clear()`. -/
def invalidateAll (st : CMState) : CMState :=
  { st with cache := [] }

/-! ### The proxy-route resolver (`src/services/proxy_manager.py`) -/

/-- The slice of a token row read by `get_proxy_url`: its optional
route-specific proxy override (`token.proxy_url`). -/
structure TokenRecord where
  proxy_url : Option String
deriving DecidableEq

/-- The global proxy configuration row read by `get_proxy_url`
(`config.proxy_enabled`, `config.proxy_url`). -/
structure ProxyConfig where
  proxy_enabled : Bool
  proxy_url : Option String
deriving DecidableEq

/-- The database as seen by `ProxyManager.get_proxy_url`: `db.get_token`
(`None` when the token id does not exist) and `db.get_proxy_config`. -/
structure Database where
  tokens : Int → Option TokenRecord
  proxyConfig : ProxyConfig

/-- Python truthiness of an optional string: `None` and `""` are falsy. -/
def optTruthy : Option String → Bool
  | none => false
  | some s => s != ""

/-- Method `ProxyManager.get_proxy_url(token_id)`: token-specific proxy when the
token id is given, the token exists and `token.proxy_url` is truthy;
otherwise the global proxy when `config.proxy_enabled and config.proxy_url`;
otherwise `None`. -/
def get_proxy_url (db : Database) (token_id : Option Int) : Option String :=
  let fallback :=
    if db.proxyConfig.proxy_enabled = true ∧ optTruthy db.proxyConfig.proxy_url = true then
      db.proxyConfig.proxy_url
    else none
  match token_id with
  | some tid =>
      match db.tokens tid with
      | some token => if optTruthy token.proxy_url then token.proxy_url else fallback
      | none => fallback
  | none => fallback

/-! ### The interleaving machine for `get_cookies(·, force_refresh=False)`

Asyncio concurrency is cooperative: control can change hands only at `await`
points.  Within `get_cookies` those are (1) acquiring the global lock inside
`_get_lock`, (2) acquiring the per-key lock, and (3) the
`_fetch_cookies_via_browser` call.  Everything between two suspension points is
one atomic transition.  The global-lock critical section of `_get_lock`
contains no `await`, so from grant to release it is a single atomic segment
and is modelled as one always-enabled transition that creates the key's lock.

The machine models a run in which `PLAYWRIGHT_AVAILABLE` is true (otherwise no
call ever touches locks or the acquirer), no entry expires during the run
(time is not advanced; stored entries are valid because they are stamped with
the current time and `CACHE_TTL > 0`), and every call uses
`force_refresh=False`.  Task `i` requests the route key `key i`; the acquirer
deterministically yields `acqRes k` for key `k` (`none` = failure). -/

/-- The phase of one `get_cookies` task: not started; suspended on the global
lock inside `_get_lock`; suspended on its key's lock; holding its key's lock
with the browser fetch outstanding; returned with result `r`. -/
inductive TPhase where
  | start
  | waitGlobal
  | waitLock
  | fetching
  | done (r : Option FetchResult)
deriving DecidableEq

/-- Machine state for `n` concurrent `get_cookies` calls: the cookie cache
(per key; timestamps are dropped because time is frozen during the run, so
validity coincides with presence), which keys have a lock object, who holds
each key's lock, each task's phase, and how often the acquirer has been
invoked per key. -/
structure MState (n : Nat) where
  cache : String → Option FetchResult
  lockExists : String → Bool
  lockHolder : String → Option (Fin n)
  tasks : Fin n → TPhase
  acqCount : String → Nat

/-- Initial state: empty cache (every key cold), no locks created, no task
started, no acquirer calls. -/
def initMState (n : Nat) : MState n :=
  ⟨fun _ => none, fun _ => false, fun _ => none, fun _ => TPhase.start, fun _ => 0⟩

/-- One atomic segment of `get_cookies(·, False)`:

* `start_hit`: first validity check succeeds — return the cached entry
  (no lock is touched).
* `start_miss`: first validity check fails — call `_get_lock` and suspend on
  the global lock.
* `getlock`: the global-lock critical section — create the key's lock if
  missing, release the global lock, suspend on the key's lock.
* `acquire_hit`: the key's lock is granted and the double-check sees a valid
  entry — release the lock and return the entry.
* `acquire_miss`: the key's lock is granted, the double-check still fails —
  count one acquirer invocation and suspend on the browser fetch.
* `fetch_done`: the fetch succeeds — store the entry, release the lock,
  return the fresh pair.
* `fetch_fail`: the fetch fails — leave the cache untouched, release the
  lock, return `none`. -/
inductive CMStep {n : Nat} (key : Fin n → String) (acqRes : String → Option FetchResult) :
    MState n → MState n → Prop where
  | start_hit (s : MState n) (i : Fin n) (r : FetchResult) :
      s.tasks i = TPhase.start → s.cache (key i) = some r →
      CMStep key acqRes s { s with tasks := Function.update s.tasks i (TPhase.done (some r)) }
  | start_miss (s : MState n) (i : Fin n) :
      s.tasks i = TPhase.start → s.cache (key i) = none →
      CMStep key acqRes s { s with tasks := Function.update s.tasks i TPhase.waitGlobal }
  | getlock (s : MState n) (i : Fin n) :
      s.tasks i = TPhase.waitGlobal →
      CMStep key acqRes s { s with
        lockExists := Function.update s.lockExists (key i) true,
        tasks := Function.update s.tasks i TPhase.waitLock }
  | acquire_hit (s : MState n) (i : Fin n) (r : FetchResult) :
      s.tasks i = TPhase.waitLock → s.lockHolder (key i) = none →
      s.cache (key i) = some r →
      CMStep key acqRes s { s with tasks := Function.update s.tasks i (TPhase.done (some r)) }
  | acquire_miss (s : MState n) (i : Fin n) :
      s.tasks i = TPhase.waitLock → s.lockHolder (key i) = none →
      s.cache (key i) = none →
      CMStep key acqRes s { s with
        lockHolder := Function.update s.lockHolder (key i) (some i),
        tasks := Function.update s.tasks i TPhase.fetching,
        acqCount := Function.update s.acqCount (key i) (s.acqCount (key i) + 1) }
  | fetch_done (s : MState n) (i : Fin n) (r : FetchResult) :
      s.tasks i = TPhase.fetching → acqRes (key i) = some r →
      CMStep key acqRes s { s with
        cache := Function.update s.cache (key i) (some r),
        lockHolder := Function.update s.lockHolder (key i) none,
        tasks := Function.update s.tasks i (TPhase.done (some r)) }
  | fetch_fail (s : MState n) (i : Fin n) :
      s.tasks i = TPhase.fetching → acqRes (key i) = none →
      CMStep key acqRes s { s with
        lockHolder := Function.update s.lockHolder (key i) none,
        tasks := Function.update s.tasks i (TPhase.done none) }

/-- States reachable from the all-cold initial state by interleaving the
atomic segments of the `n` tasks in any order. -/
def CMReachable {n : Nat} (key : Fin n → String) (acqRes : String → Option FetchResult)
    (s : MState n) : Prop :=
  Relation.ReflTransGen (CMStep key acqRes) (initMState n) s

/-- The inductive invariant of the coordination protocol. -/
structure CMInv {n : Nat} (key : Fin n → String) (acqRes : String → Option FetchResult)
    (s : MState n) : Prop where
  holderFetching : ∀ k i, s.lockHolder k = some i → s.tasks i = TPhase.fetching ∧ key i = k
  fetchingHolder : ∀ i, s.tasks i = TPhase.fetching → s.lockHolder (key i) = some i
  cacheAcq : ∀ k r, s.cache k = some r → acqRes k = some r
  doneAcq : ∀ i r, s.tasks i = TPhase.done r →
    r = acqRes (key i) ∧ ((acqRes (key i)).isSome → (s.cache (key i)).isSome)
  fetchingCacheNone : ∀ i, s.tasks i = TPhase.fetching → s.cache (key i) = none
  countEq : ∀ k, (acqRes k).isSome →
    s.acqCount k =
      (if (s.cache k).isSome then 1
       else if ∃ i, s.tasks i = TPhase.fetching ∧ key i = k then 1 else 0)
  countUsed : ∀ k, s.acqCount k ≠ 0 → ∃ i, key i = k

/-! ### A concrete two-task run of the machine

Both tasks request the same cold key `"proxyA"`, the acquirer always succeeds;
task 0 runs to completion, then task 1 observes the cached entry. -/

def c2res : FetchResult := ([("cf_clearance", "tok")], "ua0")

def c2key : Fin 2 → String := fun _ => "proxyA"

def c2acq : String → Option FetchResult := fun _ => some c2res

def c2s1 : MState 2 :=
  { initMState 2 with tasks := Function.update (initMState 2).tasks 0 TPhase.waitGlobal }

def c2s2 : MState 2 :=
  { c2s1 with
    lockExists := Function.update c2s1.lockExists (c2key 0) true,
    tasks := Function.update c2s1.tasks 0 TPhase.waitLock }

def c2s3 : MState 2 :=
  { c2s2 with
    lockHolder := Function.update c2s2.lockHolder (c2key 0) (some 0),
    tasks := Function.update c2s2.tasks 0 TPhase.fetching,
    acqCount := Function.update c2s2.acqCount (c2key 0) (c2s2.acqCount (c2key 0) + 1) }

def c2s4 : MState 2 :=
  { c2s3 with
    cache := Function.update c2s3.cache (c2key 0) (some c2res),
    lockHolder := Function.update c2s3.lockHolder (c2key 0) none,
    tasks := Function.update c2s3.tasks 0 (TPhase.done (some c2res)) }

def c2s5 : MState 2 :=
  { c2s4 with tasks := Function.update c2s4.tasks 1 (TPhase.done (some c2res)) }

/-! ### Lookup lemmas for the association-list cache -/

theorem lookup_filter_out_self (c : List (String × CacheEntry)) (k : String) :
    (c.filter (fun q => q.1 != k)).lookup k = none := by
  induction c with
  | nil => rfl
  | cons q c ih =>
      obtain ⟨a, b⟩ := q
      by_cases h : a = k
      · subst h
        simpa [List.filter_cons] using ih
      · have hb : (k == a) = false := beq_eq_false_iff_ne.mpr (Ne.symm h)
        simp [List.filter_cons, h, List.lookup_cons, hb, ih]

theorem lookup_filter_out_ne (c : List (String × CacheEntry)) (k k' : String) (h : k' ≠ k) :
    (c.filter (fun q => q.1 != k)).lookup k' = c.lookup k' := by
  induction c with
  | nil => rfl
  | cons q c ih =>
      obtain ⟨a, b⟩ := q
      by_cases hq : a = k
      · subst hq
        have hb : (k' == a) = false := beq_eq_false_iff_ne.mpr h
        simp [List.filter_cons, List.lookup_cons, hb, ih]
      · by_cases hq' : k' = a
        · subst hq'
          simp [List.filter_cons, hq, List.lookup_cons]
        · have hb : (k' == a) = false := beq_eq_false_iff_ne.mpr hq'
          simp [List.filter_cons, hq, List.lookup_cons, hb, ih]

theorem lookup_cacheStore_self (c : List (String × CacheEntry)) (k : String) (e : CacheEntry) :
    (cacheStore c k e).lookup k = some e := by
  simp [cacheStore, List.lookup_cons]

theorem lookup_cacheStore_ne (c : List (String × CacheEntry)) (k k' : String) (e : CacheEntry)
    (h : k' ≠ k) : (cacheStore c k e).lookup k' = c.lookup k' := by
  have hb : (k' == k) = false := beq_eq_false_iff_ne.mpr h
  simp only [cacheStore, List.lookup_cons, hb]
  exact lookup_filter_out_ne c k k' h

/-! ### Basic facts about the sequential embedding -/

theorem getLock_cache (st : CMState) (k : String) : (getLock st k).cache = st.cache := by
  unfold getLock
  split <;> rfl

theorem isValid_cache_congr (st st' : CMState) (k : String) (now : Nat)
    (h : st.cache = st'.cache) : isValid st k now = isValid st' k now := by
  unfold isValid
  rw [h]

theorem isValid_getLock (st : CMState) (k' k : String) (now : Nat) :
    isValid (getLock st k') k now = isValid st k now :=
  isValid_cache_congr _ _ _ _ (getLock_cache st k')

theorem isValid_lookup_isSome (st : CMState) (k : String) (now : Nat)
    (h : isValid st k now = true) : (st.cache.lookup k).isSome = true := by
  unfold isValid at h
  rcases hlk : st.cache.lookup k with _ | e
  · rw [hlk] at h; cases h
  · rfl

theorem update_fetching_iff {n : Nat} (key : Fin n → String) (t : Fin n → TPhase) (i : Fin n)
    (ph : TPhase) (hold : t i ≠ TPhase.fetching) (hnew : ph ≠ TPhase.fetching) (k : String) :
    (∃ j, Function.update t i ph j = TPhase.fetching ∧ key j = k) ↔
      (∃ j, t j = TPhase.fetching ∧ key j = k) := by
  constructor
  · rintro ⟨j, hjf, hjk⟩
    rcases eq_or_ne j i with hji | hji
    · subst hji; rw [Function.update_same] at hjf; exact absurd hjf hnew
    · rw [Function.update_noteq hji] at hjf; exact ⟨j, hjf, hjk⟩
  · rintro ⟨j, hjf, hjk⟩
    have hji : j ≠ i := fun h => hold (h ▸ hjf)
    exact ⟨j, by rw [Function.update_noteq hji]; exact hjf, hjk⟩

theorem update_fetching_iff_ne_key {n : Nat} (key : Fin n → String) (t : Fin n → TPhase)
    (i : Fin n) (ph : TPhase) (hnew : ph ≠ TPhase.fetching) (k : String) (hk : key i ≠ k) :
    (∃ j, Function.update t i ph j = TPhase.fetching ∧ key j = k) ↔
      (∃ j, t j = TPhase.fetching ∧ key j = k) := by
  constructor
  · rintro ⟨j, hjf, hjk⟩
    rcases eq_or_ne j i with hji | hji
    · subst hji; rw [Function.update_same] at hjf; exact absurd hjf hnew
    · rw [Function.update_noteq hji] at hjf; exact ⟨j, hjf, hjk⟩
  · rintro ⟨j, hjf, hjk⟩
    have hji : j ≠ i := fun h => hk (h ▸ hjk)
    exact ⟨j, by rw [Function.update_noteq hji]; exact hjf, hjk⟩

theorem update_to_fetching_iff_ne_key {n : Nat} (key : Fin n → String) (t : Fin n → TPhase)
    (i : Fin n) (hold : t i ≠ TPhase.fetching) (k : String) (hk : key i ≠ k) :
    (∃ j, Function.update t i TPhase.fetching j = TPhase.fetching ∧ key j = k) ↔
      (∃ j, t j = TPhase.fetching ∧ key j = k) := by
  constructor
  · rintro ⟨j, hjf, hjk⟩
    rcases eq_or_ne j i with hji | hji
    · subst hji; exact absurd hjk hk
    · rw [Function.update_noteq hji] at hjf; exact ⟨j, hjf, hjk⟩
  · rintro ⟨j, hjf, hjk⟩
    have hji : j ≠ i := fun h => hold (h ▸ hjf)
    exact ⟨j, by rw [Function.update_noteq hji]; exact hjf, hjk⟩

theorem cminv_init {n : Nat} (key : Fin n → String) (acqRes : String → Option FetchResult) :
    CMInv key acqRes (initMState n) := by
  constructor <;> intros <;> simp_all [initMState]

theorem cminv_step {n : Nat} {key : Fin n → String} {acqRes : String → Option FetchResult}
    {s s' : MState n} (hinv : CMInv key acqRes s) (hstep : CMStep key acqRes s s') :
    CMInv key acqRes s' := by
  obtain ⟨hHF, hFH, hCA, hDA, hFC, hCE, hCU⟩ := hinv
  cases hstep with
  | start_hit i r hi hc =>
      refine ⟨?_, ?_, hCA, ?_, ?_, ?_, hCU⟩
      · intro k j hj
        obtain ⟨hjf, hjk⟩ := hHF k j hj
        have hji : j ≠ i := fun h => by rw [h, hi] at hjf; cases hjf
        exact ⟨by dsimp only; rw [Function.update_noteq hji]; exact hjf, hjk⟩
      · intro j hj
        dsimp only at hj ⊢
        rcases eq_or_ne j i with hji | hji
        · subst hji; rw [Function.update_same] at hj; cases hj
        · rw [Function.update_noteq hji] at hj; exact hFH j hj
      · intro j rr hj
        dsimp only at hj ⊢
        rcases eq_or_ne j i with hji | hji
        · subst hji; rw [Function.update_same] at hj
          injection hj with h
          subst h
          exact ⟨(hCA _ _ hc).symm, fun _ => by rw [hc]; rfl⟩
        · rw [Function.update_noteq hji] at hj; exact hDA j rr hj
      · intro j hj
        dsimp only at hj ⊢
        rcases eq_or_ne j i with hji | hji
        · subst hji; rw [Function.update_same] at hj; cases hj
        · rw [Function.update_noteq hji] at hj; exact hFC j hj
      · intro k hk
        dsimp only
        rw [hCE k hk]
        have hiff := update_fetching_iff key s.tasks i (TPhase.done (some r))
          (by rw [hi]; intro h; cases h) (by intro h; cases h) k
        simp only [hiff]
  | start_miss i hi hc =>
      refine ⟨?_, ?_, hCA, ?_, ?_, ?_, hCU⟩
      · intro k j hj
        obtain ⟨hjf, hjk⟩ := hHF k j hj
        have hji : j ≠ i := fun h => by rw [h, hi] at hjf; cases hjf
        exact ⟨by dsimp only; rw [Function.update_noteq hji]; exact hjf, hjk⟩
      · intro j hj
        dsimp only at hj ⊢
        rcases eq_or_ne j i with hji | hji
        · subst hji; rw [Function.update_same] at hj; cases hj
        · rw [Function.update_noteq hji] at hj; exact hFH j hj
      · intro j rr hj
        dsimp only at hj ⊢
        rcases eq_or_ne j i with hji | hji
        · subst hji; rw [Function.update_same] at hj; cases hj
        · rw [Function.update_noteq hji] at hj; exact hDA j rr hj
      · intro j hj
        dsimp only at hj ⊢
        rcases eq_or_ne j i with hji | hji
        · subst hji; rw [Function.update_same] at hj; cases hj
        · rw [Function.update_noteq hji] at hj; exact hFC j hj
      · intro k hk
        dsimp only
        rw [hCE k hk]
        have hiff := update_fetching_iff key s.tasks i TPhase.waitGlobal
          (by rw [hi]; intro h; cases h) (by intro h; cases h) k
        simp only [hiff]
  | getlock i hi =>
      refine ⟨?_, ?_, hCA, ?_, ?_, ?_, hCU⟩
      · intro k j hj
        obtain ⟨hjf, hjk⟩ := hHF k j hj
        have hji : j ≠ i := fun h => by rw [h, hi] at hjf; cases hjf
        exact ⟨by dsimp only; rw [Function.update_noteq hji]; exact hjf, hjk⟩
      · intro j hj
        dsimp only at hj ⊢
        rcases eq_or_ne j i with hji | hji
        · subst hji; rw [Function.update_same] at hj; cases hj
        · rw [Function.update_noteq hji] at hj; exact hFH j hj
      · intro j rr hj
        dsimp only at hj ⊢
        rcases eq_or_ne j i with hji | hji
        · subst hji; rw [Function.update_same] at hj; cases hj
        · rw [Function.update_noteq hji] at hj; exact hDA j rr hj
      · intro j hj
        dsimp only at hj ⊢
        rcases eq_or_ne j i with hji | hji
        · subst hji; rw [Function.update_same] at hj; cases hj
        · rw [Function.update_noteq hji] at hj; exact hFC j hj
      · intro k hk
        dsimp only
        rw [hCE k hk]
        have hiff := update_fetching_iff key s.tasks i TPhase.waitLock
          (by rw [hi]; intro h; cases h) (by intro h; cases h) k
        simp only [hiff]
  | acquire_hit i r hi hfree hc =>
      refine ⟨?_, ?_, hCA, ?_, ?_, ?_, hCU⟩
      · intro k j hj
        obtain ⟨hjf, hjk⟩ := hHF k j hj
        have hji : j ≠ i := fun h => by rw [h, hi] at hjf; cases hjf
        exact ⟨by dsimp only; rw [Function.update_noteq hji]; exact hjf, hjk⟩
      · intro j hj
        dsimp only at hj ⊢
        rcases eq_or_ne j i with hji | hji
        · subst hji; rw [Function.update_same] at hj; cases hj
        · rw [Function.update_noteq hji] at hj; exact hFH j hj
      · intro j rr hj
        dsimp only at hj ⊢
        rcases eq_or_ne j i with hji | hji
        · subst hji; rw [Function.update_same] at hj
          injection hj with h
          subst h
          exact ⟨(hCA _ _ hc).symm, fun _ => by rw [hc]; rfl⟩
        · rw [Function.update_noteq hji] at hj; exact hDA j rr hj
      · intro j hj
        dsimp only at hj ⊢
        rcases eq_or_ne j i with hji | hji
        · subst hji; rw [Function.update_same] at hj; cases hj
        · rw [Function.update_noteq hji] at hj; exact hFC j hj
      · intro k hk
        dsimp only
        rw [hCE k hk]
        have hiff := update_fetching_iff key s.tasks i (TPhase.done (some r))
          (by rw [hi]; intro h; cases h) (by intro h; cases h) k
        simp only [hiff]
  | acquire_miss i hi hfree hc =>
      refine ⟨?_, ?_, hCA, ?_, ?_, ?_, ?_⟩
      · intro k j hj
        dsimp only at hj ⊢
        rcases eq_or_ne k (key i) with hk | hk
        · subst hk
          rw [Function.update_same] at hj
          injection hj with h
          subst h
          exact ⟨by rw [Function.update_same], rfl⟩
        · rw [Function.update_noteq hk] at hj
          obtain ⟨hjf, hjk⟩ := hHF k j hj
          have hji : j ≠ i := fun h => by rw [h, hi] at hjf; cases hjf
          exact ⟨by rw [Function.update_noteq hji]; exact hjf, hjk⟩
      · intro j hj
        dsimp only at hj ⊢
        rcases eq_or_ne j i with hji | hji
        · subst hji; rw [Function.update_same]
        · rw [Function.update_noteq hji] at hj
          have hjk : key j ≠ key i := by
            intro h
            have := hFH j hj
            rw [h, hfree] at this
            cases this
          rw [Function.update_noteq hjk]
          exact hFH j hj
      · intro j rr hj
        dsimp only at hj ⊢
        rcases eq_or_ne j i with hji | hji
        · subst hji; rw [Function.update_same] at hj; cases hj
        · rw [Function.update_noteq hji] at hj; exact hDA j rr hj
      · intro j hj
        dsimp only at hj ⊢
        rcases eq_or_ne j i with hji | hji
        · subst hji; rw [Function.update_same] at hj; exact hc
        · rw [Function.update_noteq hji] at hj; exact hFC j hj
      · intro k hk
        dsimp only
        rcases eq_or_ne k (key i) with hkk | hkk
        · subst hkk
          rw [Function.update_same, hCE _ hk, hc]
          have hnof : ¬∃ j, s.tasks j = TPhase.fetching ∧ key j = key i := by
            rintro ⟨j, hjf, hjk⟩
            have := hFH j hjf
            rw [hjk, hfree] at this
            cases this
          have hyesf : ∃ j, Function.update s.tasks i TPhase.fetching j = TPhase.fetching ∧
              key j = key i := ⟨i, by rw [Function.update_same], rfl⟩
          simp [hnof, hyesf]
        · rw [Function.update_noteq hkk, hCE k hk]
          have hiff := update_to_fetching_iff_ne_key key s.tasks i
            (by rw [hi]; intro h; cases h) k (Ne.symm hkk)
          simp only [hiff]
      · intro k hknz
        dsimp only at hknz
        rcases eq_or_ne k (key i) with hkk | hkk
        · exact ⟨i, hkk.symm⟩
        · rw [Function.update_noteq hkk] at hknz
          exact hCU k hknz
  | fetch_done i r hi hacq =>
      refine ⟨?_, ?_, ?_, ?_, ?_, ?_, hCU⟩
      · intro k j hj
        dsimp only at hj ⊢
        rcases eq_or_ne k (key i) with hk | hk
        · subst hk; rw [Function.update_same] at hj; cases hj
        · rw [Function.update_noteq hk] at hj
          obtain ⟨hjf, hjk⟩ := hHF k j hj
          have hji : j ≠ i := fun h => hk (by rw [← hjk, h])
          exact ⟨by rw [Function.update_noteq hji]; exact hjf, hjk⟩
      · intro j hj
        dsimp only at hj ⊢
        rcases eq_or_ne j i with hji | hji
        · subst hji; rw [Function.update_same] at hj; cases hj
        · rw [Function.update_noteq hji] at hj
          have hjk : key j ≠ key i := by
            intro h
            have h1 := hFH j hj
            have h2 := hFH i hi
            rw [h] at h1
            rw [h1] at h2
            injection h2 with h3
            exact hji h3
          rw [Function.update_noteq hjk]
          exact hFH j hj
      · intro k rr hk
        dsimp only at hk
        rcases eq_or_ne k (key i) with hkk | hkk
        · subst hkk; rw [Function.update_same] at hk
          injection hk with h
          rw [← h]; exact hacq
        · rw [Function.update_noteq hkk] at hk; exact hCA k rr hk
      · intro j rr hj
        dsimp only at hj ⊢
        rcases eq_or_ne j i with hji | hji
        · subst hji; rw [Function.update_same] at hj
          injection hj with h
          subst h
          exact ⟨hacq.symm, fun _ => by rw [Function.update_same]; rfl⟩
        · rw [Function.update_noteq hji] at hj
          obtain ⟨h1, h2⟩ := hDA j rr hj
          refine ⟨h1, fun hsome => ?_⟩
          rcases eq_or_ne (key j) (key i) with hkk | hkk
          · rw [hkk, Function.update_same]; rfl
          · rw [Function.update_noteq hkk]; exact h2 hsome
      · intro j hj
        dsimp only at hj ⊢
        rcases eq_or_ne j i with hji | hji
        · subst hji; rw [Function.update_same] at hj; cases hj
        · rw [Function.update_noteq hji] at hj
          have hjk : key j ≠ key i := by
            intro h
            have h1 := hFH j hj
            have h2 := hFH i hi
            rw [h] at h1
            rw [h1] at h2
            injection h2 with h3
            exact hji h3
          rw [Function.update_noteq hjk]
          exact hFC j hj
      · intro k hk
        dsimp only
        rcases eq_or_ne k (key i) with hkk | hkk
        · subst hkk
          rw [Function.update_same, hCE _ hk, hFC i hi]
          have hyesf : ∃ j, s.tasks j = TPhase.fetching ∧ key j = key i := ⟨i, hi, rfl⟩
          simp [hyesf]
        · rw [Function.update_noteq hkk, hCE k hk]
          have hiff := update_fetching_iff_ne_key key s.tasks i
            (TPhase.done (some r)) (by intro h; cases h) k (Ne.symm hkk)
          simp only [hiff]
  | fetch_fail i hi hacq =>
      refine ⟨?_, ?_, hCA, ?_, ?_, ?_, hCU⟩
      · intro k j hj
        dsimp only at hj ⊢
        rcases eq_or_ne k (key i) with hk | hk
        · subst hk; rw [Function.update_same] at hj; cases hj
        · rw [Function.update_noteq hk] at hj
          obtain ⟨hjf, hjk⟩ := hHF k j hj
          have hji : j ≠ i := fun h => hk (by rw [← hjk, h])
          exact ⟨by rw [Function.update_noteq hji]; exact hjf, hjk⟩
      · intro j hj
        dsimp only at hj ⊢
        rcases eq_or_ne j i with hji | hji
        · subst hji; rw [Function.update_same] at hj; cases hj
        · rw [Function.update_noteq hji] at hj
          have hjk : key j ≠ key i := by
            intro h
            have h1 := hFH j hj
            have h2 := hFH i hi
            rw [h] at h1
            rw [h1] at h2
            injection h2 with h3
            exact hji h3
          rw [Function.update_noteq hjk]
          exact hFH j hj
      · intro j rr hj
        dsimp only at hj ⊢
        rcases eq_or_ne j i with hji | hji
        · subst hji; rw [Function.update_same] at hj
          injection hj with h
          subst h
          refine ⟨hacq.symm, fun hsome => ?_⟩
          rw [hacq] at hsome
          cases hsome
        · rw [Function.update_noteq hji] at hj; exact hDA j rr hj
      · intro j hj
        dsimp only at hj ⊢
        rcases eq_or_ne j i with hji | hji
        · subst hji; rw [Function.update_same] at hj; cases hj
        · rw [Function.update_noteq hji] at hj; exact hFC j hj
      · intro k hk
        dsimp only
        have hkk : k ≠ key i := by
          intro h
          rw [h, hacq] at hk
          cases hk
        rw [hCE k hk]
        have hiff := update_fetching_iff_ne_key key s.tasks i
          (TPhase.done none) (by intro h; cases h) k (Ne.symm hkk)
        simp only [hiff]

theorem cminv_of_reachable {n : Nat} {key : Fin n → String}
    {acqRes : String → Option FetchResult} {s : MState n}
    (h : CMReachable key acqRes s) : CMInv key acqRes s := by
  induction h with
  | refl => exact cminv_init key acqRes
  | tail _ hstep ih => exact cminv_step ih hstep

/-! ### Path characterizations of `get_cookies` -/

theorem getCookies_hit (st : CMState) (p : Option String) (now : Nat)
    (fetch : Option FetchResult) (tStore : Nat) (cookies : Cookies) (ua : String) (ts : Nat)
    (hlook : st.cache.lookup (proxyKey p) = some (cookies, ua, ts))
    (hvalid : isValid st (proxyKey p) now = true) :
    getCookies true st p false now fetch tStore = ⟨some (cookies, ua), st, false, false⟩ := by
  simp [getCookies, hvalid, hlook]

theorem getCookies_miss (st : CMState) (p : Option String) (force : Bool) (now : Nat)
    (fetch : Option FetchResult) (tStore : Nat)
    (h : ¬(force = false ∧ isValid st (proxyKey p) now = true)) :
    getCookies true st p force now fetch tStore =
      getCookiesLocked (getLock st (proxyKey p)) (proxyKey p) force now fetch tStore := by
  simp only [getCookies]
  rw [if_neg (by simp), if_neg h]

theorem getCookiesLocked_hit (st : CMState) (key : String) (now : Nat)
    (fetch : Option FetchResult) (tStore : Nat) (cookies : Cookies) (ua : String) (ts : Nat)
    (hlook : st.cache.lookup key = some (cookies, ua, ts))
    (hvalid : isValid st key now = true) :
    getCookiesLocked st key false now fetch tStore = ⟨some (cookies, ua), st, true, false⟩ := by
  simp [getCookiesLocked, hvalid, hlook]

theorem getCookiesLocked_miss_some (st : CMState) (key : String) (force : Bool) (now : Nat)
    (cookies : Cookies) (ua : String) (tStore : Nat)
    (h : ¬(force = false ∧ isValid st key now = true)) :
    getCookiesLocked st key force now (some (cookies, ua)) tStore =
      ⟨some (cookies, ua), { st with cache := cacheStore st.cache key (cookies, ua, tStore) },
        true, true⟩ := by
  unfold getCookiesLocked
  rw [if_neg h]

theorem getCookiesLocked_miss_none (st : CMState) (key : String) (force : Bool) (now : Nat)
    (tStore : Nat) (h : ¬(force = false ∧ isValid st key now = true)) :
    getCookiesLocked st key force now none tStore = ⟨none, st, true, true⟩ := by
  unfold getCookiesLocked
  rw [if_neg h]

theorem isValid_of_lookup_lt (st : CMState) (k : String) (now : Nat) (cookies : Cookies)
    (ua : String) (t0 : Nat) (hlook : st.cache.lookup k = some (cookies, ua, t0))
    (hlt : now < t0 + CACHE_TTL) : isValid st k now = true := by
  unfold isValid
  rw [hlook]
  simp only [decide_eq_true_iff]
  omega

theorem isValid_false_of_lookup_ge (st : CMState) (k : String) (now : Nat) (cookies : Cookies)
    (ua : String) (t0 : Nat) (hlook : st.cache.lookup k = some (cookies, ua, t0))
    (hge : t0 + CACHE_TTL ≤ now) : isValid st k now = false := by
  unfold isValid
  rw [hlook]
  simp only [decide_eq_false_iff_not]
  omega

/-! ## Claim theorems -/

/-- C1 (amended): provided the acquisition mechanism is available
(`PLAYWRIGHT_AVAILABLE` is true), whenever the cache holds a valid (unexpired)
entry for `_proxy_key(p)`, `get_cookies(p, force_refresh=False)` returns that
entry's `(cookies, user_agent)` pair immediately: the manager state is
untouched, no per-key lock is taken and the acquirer is not invoked.  The
original claim's "unconditionally, for every configuration" fails: when
Playwright is unavailable the call returns `None` without consulting the
cache (see the counterexample). -/
theorem C1_cached_valid_no_lock (st : CMState) (p : Option String) (now : Nat)
    (fetch : Option FetchResult) (tStore : Nat) (cookies : Cookies) (ua : String) (ts : Nat)
    (hlook : st.cache.lookup (proxyKey p) = some (cookies, ua, ts))
    (hvalid : isValid st (proxyKey p) now = true) :
    getCookies true st p false now fetch tStore = ⟨some (cookies, ua), st, false, false⟩ :=
  getCookies_hit st p now fetch tStore cookies ua ts hlook hvalid

/-- C1 witness: the amended theorem applied to a one-entry cache at time 1. -/
theorem C1_cached_valid_no_lock_witness :
    getCookies true ⟨[("__no_proxy__", ([("cf_clearance", "tok")], "ua0", 0))], []⟩ none false 1
        none 1 =
      ⟨some ([("cf_clearance", "tok")], "ua0"),
        ⟨[("__no_proxy__", ([("cf_clearance", "tok")], "ua0", 0))], []⟩, false, false⟩ :=
  C1_cached_valid_no_lock ⟨[("__no_proxy__", ([("cf_clearance", "tok")], "ua0", 0))], []⟩
    none 1 none 1 [("cf_clearance", "tok")] "ua0" 0 (by decide) (by decide)

/-- C1 counterexample: the same cache state holds a valid entry for the key of
`p = None`, yet with Playwright unavailable `get_cookies(None, False)` returns
`None` instead of the cached pair — the claim's "unconditionally, for every
configuration of the manager" is false on the code (line 65 returns before the
cache is consulted). -/
theorem C1_counterexample :
    isValid ⟨[("__no_proxy__", ([("cf_clearance", "tok")], "ua0", 0))], []⟩ "__no_proxy__" 1
        = true ∧
    proxyKey none = "__no_proxy__" ∧
    getCookies false ⟨[("__no_proxy__", ([("cf_clearance", "tok")], "ua0", 0))], []⟩ none false 1
        none 1 =
      ⟨none, ⟨[("__no_proxy__", ([("cf_clearance", "tok")], "ua0", 0))], []⟩, false, false⟩ := by
  refine ⟨by decide, rfl, rfl⟩

/-- C3: an entry acquired at `t0` is valid exactly when `now - t0 < CACHE_TTL`
with `CACHE_TTL = 600`; every `get_cookies(K, False)` strictly before
`t0 + TTL` is served from the cache without re-acquisition; a call at or after
`t0 + TTL` invokes the acquirer; and an expired entry is treated as absent but
not deleted (after a failed re-acquisition it is still stored, unchanged). -/
theorem C3_ttl_expiry (st : CMState) (p : Option String) (now : Nat)
    (fetch : Option FetchResult) (tStore : Nat) (cookies : Cookies) (ua : String) (t0 : Nat)
    (hlook : st.cache.lookup (proxyKey p) = some (cookies, ua, t0)) :
    CACHE_TTL = 600 ∧
    (isValid st (proxyKey p) now = true ↔ (now : Int) - (t0 : Int) < (CACHE_TTL : Int)) ∧
    (now < t0 + CACHE_TTL →
      getCookies true st p false now fetch tStore = ⟨some (cookies, ua), st, false, false⟩) ∧
    (t0 + CACHE_TTL ≤ now →
      (getCookies true st p false now fetch tStore).acquirerCalled = true) ∧
    (t0 + CACHE_TTL ≤ now →
      (getCookies true st p false now none tStore).state.cache.lookup (proxyKey p)
        = some (cookies, ua, t0)) := by
  refine ⟨rfl, ?_, ?_, ?_, ?_⟩
  · unfold isValid
    rw [hlook]
    simp [decide_eq_true_iff]
  · intro hlt
    exact getCookies_hit st p now fetch tStore cookies ua t0 hlook
      (isValid_of_lookup_lt st (proxyKey p) now cookies ua t0 hlook hlt)
  · intro hge
    have hinv := isValid_false_of_lookup_ge st (proxyKey p) now cookies ua t0 hlook hge
    have hmiss : ¬(false = false ∧ isValid st (proxyKey p) now = true) := by
      rintro ⟨-, hv⟩
      rw [hinv] at hv
      cases hv
    rw [getCookies_miss st p false now fetch tStore hmiss]
    have hinv' : ¬(false = false ∧ isValid (getLock st (proxyKey p)) (proxyKey p) now = true) := by
      rw [isValid_getLock]
      exact hmiss
    rcases fetch with _ | ⟨c, u⟩
    · rw [getCookiesLocked_miss_none _ _ _ _ _ hinv']
    · rw [getCookiesLocked_miss_some _ _ _ _ _ _ _ hinv']
  · intro hge
    have hinv := isValid_false_of_lookup_ge st (proxyKey p) now cookies ua t0 hlook hge
    have hmiss : ¬(false = false ∧ isValid st (proxyKey p) now = true) := by
      rintro ⟨-, hv⟩
      rw [hinv] at hv
      cases hv
    rw [getCookies_miss st p false now none tStore hmiss]
    have hinv' : ¬(false = false ∧ isValid (getLock st (proxyKey p)) (proxyKey p) now = true) := by
      rw [isValid_getLock]
      exact hmiss
    rw [getCookiesLocked_miss_none _ _ _ _ _ hinv']
    rw [getLock_cache]
    exact hlook

/-- C3 witness: entry acquired at time 0; a read at time 599 is a cache hit, a
read at time 600 calls the acquirer, and after a failed refresh the stale
entry is still stored. -/
theorem C3_ttl_expiry_witness :
    (getCookies true ⟨[("__no_proxy__", ([("cf_clearance", "tok")], "ua0", 0))], []⟩ none false
        599 none 7 =
      ⟨some ([("cf_clearance", "tok")], "ua0"),
        ⟨[("__no_proxy__", ([("cf_clearance", "tok")], "ua0", 0))], []⟩, false, false⟩) ∧
    (getCookies true ⟨[("__no_proxy__", ([("cf_clearance", "tok")], "ua0", 0))], []⟩ none false
        600 none 7).acquirerCalled = true ∧
    (getCookies true ⟨[("__no_proxy__", ([("cf_clearance", "tok")], "ua0", 0))], []⟩ none false
        600 none 7).state.cache.lookup "__no_proxy__"
      = some ([("cf_clearance", "tok")], "ua0", 0) := by
  obtain ⟨-, -, h3, h4, h5⟩ := C3_ttl_expiry
    ⟨[("__no_proxy__", ([("cf_clearance", "tok")], "ua0", 0))], []⟩ none 599 none 7
    [("cf_clearance", "tok")] "ua0" 0 (by decide)
  obtain ⟨-, -, -, h4', h5'⟩ := C3_ttl_expiry
    ⟨[("__no_proxy__", ([("cf_clearance", "tok")], "ua0", 0))], []⟩ none 600 none 7
    [("cf_clearance", "tok")] "ua0" 0 (by decide)
  exact ⟨h3 (by decide), h4' (by decide), h5' (by decide)⟩

/-- C5: `get_cookies(p, force_refresh=True)` always invokes the acquirer, for
every cache state (including one holding a valid entry), and on success the
cache entry for the key afterwards holds the newly acquired pair with the
fresh store timestamp, which is also the returned value. -/
theorem C5_force_refresh_bypass (st : CMState) (p : Option String) (now : Nat)
    (fetch : Option FetchResult) (tStore : Nat) :
    (getCookies true st p true now fetch tStore).acquirerCalled = true ∧
    (∀ cookies ua, fetch = some (cookies, ua) →
      (getCookies true st p true now fetch tStore).ret = some (cookies, ua) ∧
      (getCookies true st p true now fetch tStore).state.cache.lookup (proxyKey p)
        = some (cookies, ua, tStore)) := by
  have hmiss : ¬(true = false ∧ isValid st (proxyKey p) now = true) := by
    rintro ⟨h, -⟩
    cases h
  have hmiss' : ¬(true = false ∧ isValid (getLock st (proxyKey p)) (proxyKey p) now = true) := by
    rintro ⟨h, -⟩
    cases h
  rw [getCookies_miss st p true now fetch tStore hmiss]
  constructor
  · rcases fetch with _ | ⟨c, u⟩
    · rw [getCookiesLocked_miss_none _ _ _ _ _ hmiss']
    · rw [getCookiesLocked_miss_some _ _ _ _ _ _ _ hmiss']
  · intro cookies ua hf
    subst hf
    rw [getCookiesLocked_miss_some _ _ _ _ _ _ _ hmiss']
    refine ⟨rfl, ?_⟩
    show (cacheStore (getLock st (proxyKey p)).cache (proxyKey p) (cookies, ua, tStore)).lookup
      (proxyKey p) = some (cookies, ua, tStore)
    exact lookup_cacheStore_self _ _ _

/-- C5 witness: forced refresh over a still-valid entry replaces it with the
new pair stamped at the store time. -/
theorem C5_force_refresh_bypass_witness :
    (getCookies true ⟨[("__no_proxy__", ([("cf_clearance", "old")], "ua0", 0))], []⟩ none true 1
        (some ([("cf_clearance", "new")], "ua1")) 2).acquirerCalled = true ∧
    (getCookies true ⟨[("__no_proxy__", ([("cf_clearance", "old")], "ua0", 0))], []⟩ none true 1
        (some ([("cf_clearance", "new")], "ua1")) 2).ret = some ([("cf_clearance", "new")], "ua1") ∧
    (getCookies true ⟨[("__no_proxy__", ([("cf_clearance", "old")], "ua0", 0))], []⟩ none true 1
        (some ([("cf_clearance", "new")], "ua1")) 2).state.cache.lookup "__no_proxy__"
      = some ([("cf_clearance", "new")], "ua1", 2) := by
  obtain ⟨h1, h2⟩ := C5_force_refresh_bypass
    ⟨[("__no_proxy__", ([("cf_clearance", "old")], "ua0", 0))], []⟩ none 1
    (some ([("cf_clearance", "new")], "ua1")) 2
  obtain ⟨h3, h4⟩ := h2 [("cf_clearance", "new")] "ua1" rfl
  exact ⟨h1, h3, h4⟩

/-! ### Facts about invalidation -/

theorem invalidate_lookup_self (st : CMState) (p : Option String) :
    (invalidate st p).cache.lookup (proxyKey p) = none := by
  by_cases h : (st.cache.lookup (proxyKey p)).isSome = true
  · simp only [invalidate]
    rw [if_pos h]
    exact lookup_filter_out_self st.cache (proxyKey p)
  · simp only [invalidate]
    rw [if_neg h]
    rcases hlk : st.cache.lookup (proxyKey p) with _ | e
    · rfl
    · rw [hlk] at h
      exact absurd rfl h

theorem invalidate_lookup_ne (st : CMState) (p : Option String) (k : String)
    (h : k ≠ proxyKey p) : (invalidate st p).cache.lookup k = st.cache.lookup k := by
  by_cases hs : (st.cache.lookup (proxyKey p)).isSome = true
  · simp only [invalidate]
    rw [if_pos hs]
    exact lookup_filter_out_ne st.cache (proxyKey p) k h
  · simp only [invalidate]
    rw [if_neg hs]

theorem invalidate_absent (st : CMState) (p : Option String)
    (h : st.cache.lookup (proxyKey p) = none) : invalidate st p = st := by
  simp only [invalidate]
  rw [if_neg (by rw [h]; simp)]

theorem invalidate_locks (st : CMState) (p : Option String) :
    (invalidate st p).locks = st.locks := by
  simp only [invalidate]
  split <;> rfl

/-- C6: inside the lock of `get_cookies(·, force_refresh=False)` the validity
of the key's entry is re-checked against the state observed after acquiring
the lock (which may contain an entry stored by another caller while this one
waited): if a valid entry exists at the re-check it is returned and the
acquirer is not invoked, and the acquirer is invoked exactly when no valid
entry exists at the re-check; when the pre-lock check fails, `get_cookies`
defers to this locked section. -/
theorem C6_double_check_recheck (st : CMState) (key : String) (now : Nat)
    (fetch : Option FetchResult) (tStore : Nat) :
    (∀ cookies ua ts, isValid st key now = true →
        st.cache.lookup key = some (cookies, ua, ts) →
        getCookiesLocked st key false now fetch tStore = ⟨some (cookies, ua), st, true, false⟩) ∧
    ((getCookiesLocked st key false now fetch tStore).acquirerCalled = true ↔
      isValid st key now = false) ∧
    (∀ p, proxyKey p = key → isValid st key now = false →
      getCookies true st p false now fetch tStore =
        getCookiesLocked (getLock st key) key false now fetch tStore) := by
  refine ⟨?_, ?_, ?_⟩
  · intro cookies ua ts hv hlk
    exact getCookiesLocked_hit st key now fetch tStore cookies ua ts hlk hv
  · cases hv : isValid st key now with
    | false =>
        have hmiss : ¬(false = false ∧ isValid st key now = true) := by
          rintro ⟨-, h⟩
          rw [hv] at h
          cases h
        rcases fetch with _ | ⟨c, u⟩
        · rw [getCookiesLocked_miss_none _ _ _ _ _ hmiss]
          simp
        · rw [getCookiesLocked_miss_some _ _ _ _ _ _ _ hmiss]
          simp
    | true =>
        have hsome := isValid_lookup_isSome st key now hv
        rcases hlk : st.cache.lookup key with _ | ⟨c, u, ts⟩
        · rw [hlk] at hsome
          cases hsome
        · rw [getCookiesLocked_hit st key now fetch tStore c u ts hlk hv]
          simp
  · intro p hp hv
    subst hp
    exact getCookies_miss st p false now fetch tStore
      (by rintro ⟨-, h⟩; rw [hv] at h; cases h)

/-- C6 witness: an entry stored while the caller waited for the lock is
returned by the double-check and the acquirer is not invoked. -/
theorem C6_double_check_recheck_witness :
    getCookiesLocked ⟨[("proxyA", ([("cf_clearance", "a")], "ua0", 0))], ["proxyA"]⟩ "proxyA"
        false 1 (some ([("cf_clearance", "b")], "ua1")) 3 =
      ⟨some ([("cf_clearance", "a")], "ua0"),
        ⟨[("proxyA", ([("cf_clearance", "a")], "ua0", 0))], ["proxyA"]⟩, true, false⟩ := by
  obtain ⟨h1, -, -⟩ := C6_double_check_recheck
    ⟨[("proxyA", ([("cf_clearance", "a")], "ua0", 0))], ["proxyA"]⟩ "proxyA" 1
    (some ([("cf_clearance", "b")], "ua1")) 3
  exact h1 [("cf_clearance", "a")] "ua0" 0 (by decide) (by decide)

/-- C7: `invalidate(p)` removes the entry for `_proxy_key(p)` if present, is a
no-op if absent, is idempotent, and never modifies the lock registry;
`invalidate_all()` removes every entry, is idempotent, and leaves all locks in
place. -/
theorem C7_invalidate_semantics (st : CMState) (p : Option String) :
    ((st.cache.lookup (proxyKey p)).isSome = true →
        (invalidate st p).cache.lookup (proxyKey p) = none) ∧
    (st.cache.lookup (proxyKey p) = none → invalidate st p = st) ∧
    invalidate (invalidate st p) p = invalidate st p ∧
    (invalidate st p).locks = st.locks ∧
    (∀ k, (invalidateAll st).cache.lookup k = none) ∧
    invalidateAll (invalidateAll st) = invalidateAll st ∧
    (invalidateAll st).locks = st.locks := by
  refine ⟨fun _ => invalidate_lookup_self st p, invalidate_absent st p,
    invalidate_absent _ _ (invalidate_lookup_self st p), invalidate_locks st p,
    fun k => rfl, rfl, rfl⟩

/-- C7 witness: a two-entry cache with a lock for one key. -/
theorem C7_invalidate_semantics_witness :
    invalidate ⟨[("proxyA", ([], "u", 0)), ("__no_proxy__", ([], "v", 1))], ["proxyA"]⟩
        (some "proxyA")
      = ⟨[("__no_proxy__", ([], "v", 1))], ["proxyA"]⟩ ∧
    (invalidate ⟨[("proxyA", ([], "u", 0)), ("__no_proxy__", ([], "v", 1))], ["proxyA"]⟩
        (some "proxyA")).cache.lookup "proxyA" = none := by
  constructor
  · have h := (C7_invalidate_semantics
      ⟨[("proxyA", ([], "u", 0)), ("__no_proxy__", ([], "v", 1))], ["proxyA"]⟩
      (some "proxyA")).1 (by decide)
    decide
  · exact (C7_invalidate_semantics
      ⟨[("proxyA", ([], "u", 0)), ("__no_proxy__", ([], "v", 1))], ["proxyA"]⟩
      (some "proxyA")).1 (by decide)

/-- C8 counterexample: `_proxy_key` maps the non-empty proxy URL
`"__no_proxy__"` to the very same key as an absent proxy URL, so the sentinel
is not distinct from *every* non-empty proxy URL and the no-proxy and
per-proxy partitions can alias. -/
theorem C8_counterexample :
    proxyKey (some "__no_proxy__") = proxyKey none ∧ ("__no_proxy__" : String) ≠ "" := by
  exact ⟨by decide, by decide⟩

/-- C8 (amended): route-key normalization maps both an absent and an
empty-string proxy URL to the sentinel `"__no_proxy__"`, and maps every
non-empty proxy URL to itself — hence every non-empty proxy URL *other than
the literal string `"__no_proxy__"`* gets a key distinct from the sentinel
(the original claim's "distinct from every non-empty proxy URL" fails for
that one string).  The same normalization is used by reads and invalidation:
`invalidate(p)` removes exactly the entry `get_cookies(p)` would consult, and
a `get_cookies(p, False)` right after `invalidate(p)` re-acquires. -/
theorem C8_proxy_key_normalization (st : CMState) (p : Option String) (now : Nat)
    (fetch : Option FetchResult) (tStore : Nat) :
    proxyKey none = "__no_proxy__" ∧
    proxyKey (some "") = "__no_proxy__" ∧
    (∀ s : String, s ≠ "" → proxyKey (some s) = s) ∧
    (∀ s : String, s ≠ "" → s ≠ "__no_proxy__" → proxyKey (some s) ≠ proxyKey none) ∧
    (invalidate st p).cache.lookup (proxyKey p) = none ∧
    (∀ k, k ≠ proxyKey p → (invalidate st p).cache.lookup k = st.cache.lookup k) ∧
    (getCookies true (invalidate st p) p false now fetch tStore).acquirerCalled = true := by
  have hkey : ∀ s : String, s ≠ "" → proxyKey (some s) = s := by
    intro s hs
    show (if s = "" then "__no_proxy__" else s) = s
    rw [if_neg hs]
  refine ⟨rfl, by decide, hkey, ?_, invalidate_lookup_self st p, invalidate_lookup_ne st p, ?_⟩
  · intro s h1 h2
    rw [hkey s h1]
    exact fun h => h2 h
  · have hinv : isValid (invalidate st p) (proxyKey p) now = false := by
      unfold isValid
      rw [invalidate_lookup_self st p]
    have hmiss : ¬(false = false ∧ isValid (invalidate st p) (proxyKey p) now = true) := by
      rintro ⟨-, h⟩
      rw [hinv] at h
      cases h
    rw [getCookies_miss _ p false now fetch tStore hmiss]
    have hmiss' : ¬(false = false ∧
        isValid (getLock (invalidate st p) (proxyKey p)) (proxyKey p) now = true) := by
      rw [isValid_getLock]
      exact hmiss
    rcases fetch with _ | ⟨c, u⟩
    · rw [getCookiesLocked_miss_none _ _ _ _ _ hmiss']
    · rw [getCookiesLocked_miss_some _ _ _ _ _ _ _ hmiss']

/-- C8 witness: invalidating `"proxyA"` removes exactly its entry, keeps the
other partition, and the next read for it re-acquires. -/
theorem C8_proxy_key_normalization_witness :
    proxyKey (some "proxyA") ≠ proxyKey none ∧
    (invalidate ⟨[("proxyA", ([], "u", 0)), ("__no_proxy__", ([], "v", 1))], []⟩
        (some "proxyA")).cache.lookup "proxyA" = none ∧
    (invalidate ⟨[("proxyA", ([], "u", 0)), ("__no_proxy__", ([], "v", 1))], []⟩
        (some "proxyA")).cache.lookup "__no_proxy__" = some ([], "v", 1) ∧
    (getCookies true
        (invalidate ⟨[("proxyA", ([], "u", 0)), ("__no_proxy__", ([], "v", 1))], []⟩
          (some "proxyA"))
        (some "proxyA") false 2 none 2).acquirerCalled = true := by
  obtain ⟨-, -, -, h4, h5, h6, h7⟩ := C8_proxy_key_normalization
    ⟨[("proxyA", ([], "u", 0)), ("__no_proxy__", ([], "v", 1))], []⟩ (some "proxyA") 2 none 2
  refine ⟨h4 "proxyA" (by decide) (by decide), h5, ?_, h7⟩
  rw [h6 "__no_proxy__" (by decide)]
  decide

/-- C9: `get_proxy_url` resolves with the precedence: a given token id whose
token exists and has a truthy (non-empty) route-specific `proxy_url` wins;
otherwise the global proxy URL when the global proxy is enabled and its URL
is truthy; otherwise `None` (direct connection). -/
theorem C9_proxy_resolution (db : Database) (tid? : Option Int) :
    (∀ tid token, tid? = some tid → db.tokens tid = some token →
        optTruthy token.proxy_url = true → get_proxy_url db tid? = token.proxy_url) ∧
    ((∀ tid, tid? = some tid →
        db.tokens tid = none ∨
          ∀ token, db.tokens tid = some token → optTruthy token.proxy_url = false) →
      (db.proxyConfig.proxy_enabled = true → optTruthy db.proxyConfig.proxy_url = true →
        get_proxy_url db tid? = db.proxyConfig.proxy_url) ∧
      ((db.proxyConfig.proxy_enabled = false ∨ optTruthy db.proxyConfig.proxy_url = false) →
        get_proxy_url db tid? = none)) := by
  constructor
  · intro tid token htid htok htruthy
    subst htid
    simp only [get_proxy_url, htok, htruthy]
    rfl
  · intro hno
    constructor
    · intro hen hurl
      rcases htid : tid? with _ | tid
      · simp only [get_proxy_url]
        rw [if_pos ⟨hen, hurl⟩]
      · rcases hno tid htid with hnone | hfalse
        · simp only [get_proxy_url, hnone]
          rw [if_pos ⟨hen, hurl⟩]
        · rcases htok : db.tokens tid with _ | token
          · simp only [get_proxy_url, htok]
            rw [if_pos ⟨hen, hurl⟩]
          · have hf := hfalse token htok
            simp only [get_proxy_url, htok]
            rw [if_neg (by rw [hf]; simp), if_pos ⟨hen, hurl⟩]
    · intro hoff
      have hneg : ¬(db.proxyConfig.proxy_enabled = true ∧
          optTruthy db.proxyConfig.proxy_url = true) := by
        rintro ⟨h1, h2⟩
        rcases hoff with h | h
        · rw [h1] at h; cases h
        · rw [h2] at h; cases h
      rcases htid : tid? with _ | tid
      · simp only [get_proxy_url]
        rw [if_neg hneg]
      · rcases hno tid htid with hnone | hfalse
        · simp only [get_proxy_url, hnone]
          rw [if_neg hneg]
        · rcases htok : db.tokens tid with _ | token
          · simp only [get_proxy_url, htok]
            rw [if_neg hneg]
          · have hf := hfalse token htok
            simp only [get_proxy_url, htok]
            rw [if_neg (by rw [hf]; simp), if_neg hneg]

/-- C9 witness: a database with one token carrying an override and an enabled
global proxy — the override wins for that token id, the global applies
otherwise. -/
theorem C9_proxy_resolution_witness :
    get_proxy_url
        ⟨fun tid => if tid = 1 then some ⟨some "http://tok"⟩ else none,
          ⟨true, some "http://glob"⟩⟩ (some 1) = some "http://tok" ∧
    get_proxy_url
        ⟨fun tid => if tid = 1 then some ⟨some "http://tok"⟩ else none,
          ⟨true, some "http://glob"⟩⟩ (some 2) = some "http://glob" := by
  constructor
  · exact (C9_proxy_resolution
      ⟨fun tid => if tid = 1 then some ⟨some "http://tok"⟩ else none,
        ⟨true, some "http://glob"⟩⟩ (some 1)).1 1 ⟨some "http://tok"⟩ rfl (by norm_num) (by decide)
  · exact ((C9_proxy_resolution
      ⟨fun tid => if tid = 1 then some ⟨some "http://tok"⟩ else none,
        ⟨true, some "http://glob"⟩⟩ (some 2)).2
      (by intro tid htid; left; injection htid with h; subst h; norm_num)).1 rfl (by decide)

/-! ### Frame lemmas for the locked section -/

theorem getCookiesLocked_lookup_ne (st : CMState) (key : String) (force : Bool) (now : Nat)
    (fetch : Option FetchResult) (tStore : Nat) (k : String) (hk : k ≠ key) :
    (getCookiesLocked st key force now fetch tStore).state.cache.lookup k
      = st.cache.lookup k := by
  unfold getCookiesLocked
  split
  · split <;> rfl
  · rcases fetch with _ | ⟨c, u⟩
    · rfl
    · exact lookup_cacheStore_ne st.cache key k (c, u, tStore) hk

theorem getCookiesLocked_lookup_isSome (st : CMState) (key : String) (force : Bool) (now : Nat)
    (fetch : Option FetchResult) (tStore : Nat) (k : String) (e : CacheEntry)
    (h : st.cache.lookup k = some e) :
    ∃ e', (getCookiesLocked st key force now fetch tStore).state.cache.lookup k = some e' := by
  by_cases hk : k = key
  · subst hk
    unfold getCookiesLocked
    split
    · split <;> exact ⟨e, h⟩
    · rcases fetch with _ | ⟨c, u⟩
      · exact ⟨e, h⟩
      · exact ⟨(c, u, tStore), lookup_cacheStore_self st.cache k (c, u, tStore)⟩
  · exact ⟨e, by rw [getCookiesLocked_lookup_ne st key force now fetch tStore k hk]; exact h⟩

theorem getCookiesLocked_locks (st : CMState) (key : String) (force : Bool) (now : Nat)
    (fetch : Option FetchResult) (tStore : Nat) :
    (getCookiesLocked st key force now fetch tStore).state.locks = st.locks := by
  unfold getCookiesLocked
  split
  · split <;> rfl
  · rcases fetch with _ | ⟨c, u⟩ <;> rfl

theorem getLock_locks_cases (st : CMState) (k : String) :
    (getLock st k).locks = st.locks ∨ (k ∉ st.locks ∧ (getLock st k).locks = k :: st.locks) := by
  unfold getLock
  by_cases h : k ∈ st.locks
  · rw [if_pos h]
    exact Or.inl rfl
  · rw [if_neg h]
    exact Or.inr ⟨h, rfl⟩

/-- C10: on every return path of `get_cookies(p, f)` — unavailable mechanism,
cache hit, acquisition success, acquisition failure — the cache entries of
every key other than `_proxy_key(p)` are unchanged, no cache entry is ever
deleted, and the lock registry is either unchanged or extended by exactly the
one lock for `_proxy_key(p)`. -/
theorem C10_get_cookies_frame (avail : Bool) (st : CMState) (p : Option String) (force : Bool)
    (now : Nat) (fetch : Option FetchResult) (tStore : Nat) :
    (∀ k, k ≠ proxyKey p →
      (getCookies avail st p force now fetch tStore).state.cache.lookup k
        = st.cache.lookup k) ∧
    (∀ k e, st.cache.lookup k = some e →
      ∃ e', (getCookies avail st p force now fetch tStore).state.cache.lookup k = some e') ∧
    ((getCookies avail st p force now fetch tStore).state.locks = st.locks ∨
      (proxyKey p ∉ st.locks ∧
        (getCookies avail st p force now fetch tStore).state.locks = proxyKey p :: st.locks)) := by
  cases avail with
  | false => exact ⟨fun k _ => rfl, fun k e h => ⟨e, h⟩, Or.inl rfl⟩
  | true =>
      by_cases hcond : force = false ∧ isValid st (proxyKey p) now = true
      · obtain ⟨hf, hv⟩ := hcond
        subst hf
        have hsome := isValid_lookup_isSome st (proxyKey p) now hv
        rcases hlk : st.cache.lookup (proxyKey p) with _ | ⟨c, u, ts⟩
        · rw [hlk] at hsome
          cases hsome
        · rw [getCookies_hit st p now fetch tStore c u ts hlk hv]
          exact ⟨fun k _ => rfl, fun k e h => ⟨e, h⟩, Or.inl rfl⟩
      · rw [getCookies_miss st p force now fetch tStore hcond]
        refine ⟨?_, ?_, ?_⟩
        · intro k hk
          rw [getCookiesLocked_lookup_ne _ _ _ _ _ _ k hk, getLock_cache]
        · intro k e h
          exact getCookiesLocked_lookup_isSome _ _ _ _ _ _ k e (by rw [getLock_cache]; exact h)
        · rw [getCookiesLocked_locks]
          exact getLock_locks_cases st (proxyKey p)

/-- C10 witness: a failed acquisition for a fresh key leaves the other key's
entry in place, deletes nothing, and adds exactly the one new lock. -/
theorem C10_get_cookies_frame_witness :
    (getCookies true ⟨[("__no_proxy__", ([], "v", 1))], []⟩ (some "proxyA") false 2 none
        2).state.cache.lookup "__no_proxy__" = some ([], "v", 1) ∧
    ((getCookies true ⟨[("__no_proxy__", ([], "v", 1))], []⟩ (some "proxyA") false 2 none
        2).state.locks = ([] : List String) ∨
      ("proxyA" ∉ ([] : List String) ∧
        (getCookies true ⟨[("__no_proxy__", ([], "v", 1))], []⟩ (some "proxyA") false 2 none
          2).state.locks = ["proxyA"])) := by
  obtain ⟨h1, -, h3⟩ := C10_get_cookies_frame true ⟨[("__no_proxy__", ([], "v", 1))], []⟩
    (some "proxyA") false 2 none 2
  refine ⟨?_, h3⟩
  rw [h1 "__no_proxy__" (by decide)]
  decide

/-- C4: when the acquirer returns no usable result inside `get_cookies` for a
key (and the call reached the acquisition step), the cache is left exactly as
it was — any stale entry remains — the call returns the absent result rather
than raising, a finished call never holds its key's lock (machine-level:
every done task has released it on every path, failure included), and a
subsequent successful call still stores and returns a fresh entry. -/
theorem C4_failure_not_poisoning (st : CMState) (p : Option String) (force : Bool) (now : Nat)
    (tStore : Nat) (hmiss : force = true ∨ isValid st (proxyKey p) now = false) :
    (getCookies true st p force now none tStore).ret = none ∧
    (getCookies true st p force now none tStore).state.cache = st.cache ∧
    (∀ {n : Nat} (key : Fin n → String) (acqRes : String → Option FetchResult) (s : MState n)
        (i : Fin n) (r : Option FetchResult),
      CMReachable key acqRes s → s.tasks i = TPhase.done r → s.lockHolder (key i) ≠ some i) ∧
    (∀ now2 cookies ua t2, isValid st (proxyKey p) now2 = false →
      (getCookies true (getCookies true st p force now none tStore).state p false now2
          (some (cookies, ua)) t2).ret = some (cookies, ua) ∧
      (getCookies true (getCookies true st p force now none tStore).state p false now2
          (some (cookies, ua)) t2).state.cache.lookup (proxyKey p)
        = some (cookies, ua, t2)) := by
  have hcond : ¬(force = false ∧ isValid st (proxyKey p) now = true) := by
    rintro ⟨hf, hv⟩
    rcases hmiss with h | h
    · rw [hf] at h
      cases h
    · rw [hv] at h
      cases h
  have hcond' : ¬(force = false ∧ isValid (getLock st (proxyKey p)) (proxyKey p) now = true) := by
    rw [isValid_getLock]
    exact hcond
  rw [getCookies_miss st p force now none tStore hcond,
    getCookiesLocked_miss_none _ _ _ _ _ hcond']
  refine ⟨rfl, getLock_cache st (proxyKey p), ?_, ?_⟩
  · intro n key acqRes s i r hreach hdone hlock
    have inv := cminv_of_reachable hreach
    have hf := (inv.holderFetching (key i) i hlock).1
    rw [hdone] at hf
    cases hf
  · intro now2 cookies ua t2 hinv2
    have hinv2' : isValid (getLock st (proxyKey p)) (proxyKey p) now2 = false := by
      rw [isValid_getLock]
      exact hinv2
    have hcond2 : ¬(false = false ∧
        isValid (getLock st (proxyKey p)) (proxyKey p) now2 = true) := by
      rintro ⟨-, hv⟩
      rw [hinv2'] at hv
      cases hv
    have hcond2' : ¬(false = false ∧
        isValid (getLock (getLock st (proxyKey p)) (proxyKey p)) (proxyKey p) now2 = true) := by
      rw [isValid_getLock]
      exact hcond2
    rw [getCookies_miss _ p false now2 (some (cookies, ua)) t2 hcond2,
      getCookiesLocked_miss_some _ _ _ _ _ _ _ hcond2']
    exact ⟨rfl, by rw [getLock_cache]; exact lookup_cacheStore_self _ _ _⟩

/-- C4 witness: acquisition failure over an expired stale entry — the stale
entry survives unchanged, the result is absent, and a later successful call
stores the fresh pair. -/
theorem C4_failure_not_poisoning_witness :
    (getCookies true ⟨[("__no_proxy__", ([("cf_clearance", "old")], "ua0", 0))], []⟩ none false
        700 none 700).ret = none ∧
    (getCookies true ⟨[("__no_proxy__", ([("cf_clearance", "old")], "ua0", 0))], []⟩ none false
        700 none 700).state.cache
      = [("__no_proxy__", ([("cf_clearance", "old")], "ua0", 0))] ∧
    (getCookies true
        (getCookies true ⟨[("__no_proxy__", ([("cf_clearance", "old")], "ua0", 0))], []⟩ none
          false 700 none 700).state none false 701 (some ([("cf_clearance", "new")], "ua1"))
        701).ret = some ([("cf_clearance", "new")], "ua1") := by
  obtain ⟨h1, h2, -, h4⟩ := C4_failure_not_poisoning
    ⟨[("__no_proxy__", ([("cf_clearance", "old")], "ua0", 0))], []⟩ none false 700 700
    (Or.inr (by decide))
  obtain ⟨h5, -⟩ := h4 701 [("cf_clearance", "new")] "ua1" 701 (by decide)
  exact ⟨h1, h2, h5⟩

/-- C2: single-flight per key.  In every reachable interleaving of `n`
concurrent `get_cookies(·, False)` calls from the all-cold state with an
always-succeeding acquirer: at most one acquirer call per key is in flight at
any time; a task can only be blocked by the holder of *its own* key's lock
(every lock holder's key is the lock's key, so calls for distinct keys never
contend); and once all calls have returned, every call for key `k` returned
the same pair `acqRes k`, every key requested by some task was acquired
exactly once, and no other key was ever acquired. -/
theorem C2_single_flight {n : Nat} (key : Fin n → String)
    (acqRes : String → Option FetchResult) (s : MState n)
    (hsucc : ∀ k, (acqRes k).isSome = true) (hreach : CMReachable key acqRes s) :
    (∀ i j, s.tasks i = TPhase.fetching → s.tasks j = TPhase.fetching → key i = key j →
      i = j) ∧
    (∀ k i, s.lockHolder k = some i → key i = k) ∧
    ((∀ i, ∃ r, s.tasks i = TPhase.done r) →
      (∀ i, s.tasks i = TPhase.done (acqRes (key i))) ∧
      (∀ k, (∃ i, key i = k) → s.acqCount k = 1) ∧
      (∀ k, (∀ i, key i ≠ k) → s.acqCount k = 0)) := by
  have inv := cminv_of_reachable hreach
  refine ⟨?_, ?_, ?_⟩
  · intro i j hi hj hk
    have h1 := inv.fetchingHolder i hi
    have h2 := inv.fetchingHolder j hj
    rw [hk, h2] at h1
    injection h1 with h
    exact h.symm
  · intro k i h
    exact (inv.holderFetching k i h).2
  · intro hall
    have hnof : ∀ k, ¬∃ i, s.tasks i = TPhase.fetching ∧ key i = k := by
      rintro k ⟨i, hif, -⟩
      obtain ⟨r, hr⟩ := hall i
      rw [hr] at hif
      cases hif
    have hdone : ∀ i, s.tasks i = TPhase.done (acqRes (key i)) := by
      intro i
      obtain ⟨r, hr⟩ := hall i
      have := (inv.doneAcq i r hr).1
      rw [this] at hr
      exact hr
    refine ⟨hdone, ?_, ?_⟩
    · rintro k ⟨i, hik⟩
      have hcache : (s.cache k).isSome = true := by
        have h2 := (inv.doneAcq i (acqRes (key i)) (hdone i)).2
        rw [hik] at h2
        exact h2 (hsucc k)
      rw [inv.countEq k (hsucc k), if_pos hcache]
    · intro k hk
      by_contra h
      obtain ⟨i, hik⟩ := inv.countUsed k h
      exact hk i hik

/-- C2 witness: the concrete two-task run on the cold key `"proxyA"` — both
tasks finish with the same acquired pair and the acquirer ran exactly once. -/
theorem C2_single_flight_witness :
    c2s5.acqCount "proxyA" = 1 ∧ c2s5.tasks 1 = TPhase.done (some c2res) := by
  have hreach : CMReachable c2key c2acq c2s5 :=
    Relation.ReflTransGen.tail (Relation.ReflTransGen.tail (Relation.ReflTransGen.tail
      (Relation.ReflTransGen.tail (Relation.ReflTransGen.tail Relation.ReflTransGen.refl
        (CMStep.start_miss (initMState 2) 0 (by decide) (by decide)))
        (CMStep.getlock c2s1 0 (by decide)))
        (CMStep.acquire_miss c2s2 0 (by decide) (by decide) (by decide)))
        (CMStep.fetch_done c2s3 0 c2res (by decide) (by decide)))
        (CMStep.start_hit c2s4 1 c2res (by decide) (by decide))
  obtain ⟨-, -, h3⟩ := C2_single_flight c2key c2acq c2s5 (fun k => rfl) hreach
  obtain ⟨hret, hused, -⟩ := h3 (by intro i; fin_cases i <;> exact ⟨some c2res, by decide⟩)
  exact ⟨hused "proxyA" ⟨0, rfl⟩, hret 1⟩
